import Mathlib

/-!
Verification of the XLA GPU backend kernel-constraint filter
(`tensorflow/compiler/tf2xla/xla_gpu_backend.cc`) and of the
dynamic-dimension-preserving concat lowering
(`ConcatBaseOp::Compile` in `tensorflow/compiler/tf2xla/kernels/concat_op.cc`,
as excerpted in the repository's change description).
-/

namespace TfXla

/-- Element-type tags (the `DataType` enumeration used by kernel
constraints); the constructors relevant to the GPU backend filter. -/
inductive DataType where
  | DT_FLOAT
  | DT_DOUBLE
  | DT_INT32
  | DT_UINT8
  | DT_INT16
  | DT_INT8
  | DT_STRING
  | DT_COMPLEX64
  | DT_INT64
  | DT_BOOL
  | DT_QINT8
  | DT_QUINT8
  | DT_QINT32
  | DT_BFLOAT16
  | DT_UINT16
  | DT_COMPLEX128
  | DT_HALF
  | DT_FLOAT8_E5M2
  | DT_FLOAT8_E4M3FN
  deriving DecidableEq

/-- One `KernelDef::AttrConstraint`: a named type-parameter slot together
with its allowed-value list (`allowed_values().list().type`). -/
structure AttrConstraint where
  name : String
  allowed_values : List DataType
  deriving DecidableEq

/-- A `KernelDef`: the operation name and its ordered constraint list. -/
structure KernelDef where
  op : String
  constraint : List AttrConstraint
  deriving DecidableEq

/-- Modelled from the spec: `kGpuAllTypes`, the GPU backend's full supported
element-type set.  It is declared in `xla_op_registry.h`, which is not among
the sources; the spec describes it only as "the backend's full supported
element-type set", so a concrete non-empty enumeration of GPU-supported tags
is used. -/
def kGpuAllTypes : List DataType :=
  [DataType.DT_UINT8, DataType.DT_QUINT8, DataType.DT_UINT16, DataType.DT_INT8,
   DataType.DT_QINT8, DataType.DT_INT16, DataType.DT_INT32, DataType.DT_QINT32,
   DataType.DT_INT64, DataType.DT_HALF, DataType.DT_FLOAT, DataType.DT_DOUBLE,
   DataType.DT_COMPLEX64, DataType.DT_COMPLEX128, DataType.DT_BOOL,
   DataType.DT_BFLOAT16, DataType.DT_FLOAT8_E5M2, DataType.DT_FLOAT8_E4M3FN]

/-- Modelled from the spec: `AddDtypeToKernelDefConstraint` (declared in
`tf2xla_util.h`, not among the sources) ensures the named constraint slot
explicitly allows the given element type: every constraint whose name matches
gains the type in its allowed-value list when it is not already present. -/
def AddDtypeToKernelDefConstraint (nm : String) (dtype : DataType) (kdef : KernelDef) : KernelDef :=
  KernelDef.mk kdef.op
    (kdef.constraint.map fun c =>
      if c.name = nm then
        (if dtype ∈ c.allowed_values then c
         else AttrConstraint.mk c.name (c.allowed_values ++ [dtype]))
      else c)

/-- The action of `GpuOpFilter` on one constraint of a `ConcatV2` kernel
definition: a `T` slot whose allowed-value list is exactly the singleton
`DT_FLOAT8_E4M3FN` is cleared and refilled with all of `kGpuAllTypes`
(`clear_type` followed by `add_type` over `kGpuAllTypes`); any other slot is
untouched. -/
def widenConcatV2Constraint (c : AttrConstraint) : AttrConstraint :=
  if c.name = "T" ∧ c.allowed_values = [DataType.DT_FLOAT8_E4M3FN] then
    AttrConstraint.mk c.name kGpuAllTypes
  else c

/-- First `if` block of `GpuOpFilter`: for a `Const` kernel, add `DT_STRING`
to the `dtype` constraint slot. -/
def gpuConstRule (k : KernelDef) : KernelDef :=
  if k.op = "Const" then AddDtypeToKernelDefConstraint "dtype" DataType.DT_STRING k else k

/-- Second `if` block of `GpuOpFilter`: for an `Assert` kernel, add
`DT_STRING` to the `T` constraint slot. -/
def gpuAssertRule (k : KernelDef) : KernelDef :=
  if k.op = "Assert" then AddDtypeToKernelDefConstraint "T" DataType.DT_STRING k else k

/-- Third `if` block of `GpuOpFilter`: for a `ConcatV2` kernel, widen every
`T` slot whose allowed-value list is exactly `[DT_FLOAT8_E4M3FN]`. -/
def gpuConcatRule (k : KernelDef) : KernelDef :=
  if k.op = "ConcatV2" then KernelDef.mk k.op (k.constraint.map widenConcatV2Constraint) else k

/-- `GpuOpFilter` from `xla_gpu_backend.cc`: adds `DT_STRING` to the `dtype`
slot of `Const` kernels and to the `T` slot of `Assert` kernels, widens a
`ConcatV2` kernel's singleton `DT_FLOAT8_E4M3FN` `T` constraint to
`kGpuAllTypes`, and always returns `true` (the kernel stays eligible). -/
def GpuOpFilter (kdef : KernelDef) : Bool × KernelDef :=
  (true, gpuConcatRule (gpuAssertRule (gpuConstRule kdef)))

/-- Claim C7: `GpuOpFilter` returns `true` for every kernel definition: under
the current rule set no kernel is ever rejected from eligibility. -/
theorem gpuOpFilter_always_true (kdef : KernelDef) : (GpuOpFilter kdef).1 = true := rfl

/-- Claim C1: for every `ConcatV2` kernel definition whose `T` constraint's
allowed-value list is exactly the singleton `DT_FLOAT8_E4M3FN`, after
`GpuOpFilter` runs that allowed-value list equals the backend's full supported
set `kGpuAllTypes`, which is non-empty. -/
theorem concatv2_singleton_T_widened (kdef : KernelDef) (i : Nat) (c : AttrConstraint)
    (hop : kdef.op = "ConcatV2") (hc : kdef.constraint[i]? = some c)
    (hn : c.name = "T") (ha : c.allowed_values = [DataType.DT_FLOAT8_E4M3FN]) :
    (GpuOpFilter kdef).2.constraint[i]? = some (AttrConstraint.mk "T" kGpuAllTypes) ∧
      kGpuAllTypes ≠ [] := by
  obtain ⟨op, cs⟩ := kdef
  simp only at hop hc
  subst hop
  refine ⟨?_, by decide⟩
  have hfil : GpuOpFilter (KernelDef.mk "ConcatV2" cs) =
      (true, KernelDef.mk "ConcatV2" (cs.map widenConcatV2Constraint)) := rfl
  rw [hfil]
  have hw : widenConcatV2Constraint c = AttrConstraint.mk "T" kGpuAllTypes := by
    rw [widenConcatV2Constraint, if_pos ⟨hn, ha⟩, hn]
  simp only [List.getElem?_map, hc, Option.map_some', hw]

theorem concatv2_singleton_T_widened_witness :
    (GpuOpFilter (KernelDef.mk "ConcatV2"
        [AttrConstraint.mk "T" [DataType.DT_FLOAT8_E4M3FN]])).2.constraint[0]? =
      some (AttrConstraint.mk "T" kGpuAllTypes) ∧ kGpuAllTypes ≠ [] :=
  concatv2_singleton_T_widened
    (KernelDef.mk "ConcatV2" [AttrConstraint.mk "T" [DataType.DT_FLOAT8_E4M3FN]])
    0 (AttrConstraint.mk "T" [DataType.DT_FLOAT8_E4M3FN]) rfl rfl rfl rfl

/-- A map whose function fixes every element of the list leaves the list
unchanged. -/
theorem map_self_of_fixed {α : Type} (f : α → α) :
    ∀ l : List α, (∀ a ∈ l, f a = a) → l.map f = l
  | [], _ => rfl
  | a :: l, h => by
    rw [List.map_cons, h a (List.mem_cons_self a l),
      map_self_of_fixed f l (fun b hb => h b (List.mem_cons_of_mem a hb))]

/-- After `AddDtypeToKernelDefConstraint nm d`, every constraint named `nm`
allows `d`. -/
theorem addDtype_mem (nm : String) (d : DataType) (k : KernelDef) (c : AttrConstraint)
    (hc : c ∈ (AddDtypeToKernelDefConstraint nm d k).constraint) (hn : c.name = nm) :
    d ∈ c.allowed_values := by
  rw [AddDtypeToKernelDefConstraint] at hc
  simp only [List.mem_map] at hc
  obtain ⟨c0, hc0, heq⟩ := hc
  by_cases h1 : c0.name = nm
  · rw [if_pos h1] at heq
    by_cases h2 : d ∈ c0.allowed_values
    · rw [if_pos h2] at heq
      subst heq
      exact h2
    · rw [if_neg h2] at heq
      subst heq
      simp
  · rw [if_neg h1] at heq
    subst heq
    exact absurd hn h1

/-- `AddDtypeToKernelDefConstraint` never empties an allowed-value list. -/
theorem addDtype_preserves_nonempty (nm : String) (d : DataType) (k : KernelDef)
    (h : ∀ c ∈ k.constraint, c.allowed_values ≠ []) :
    ∀ c ∈ (AddDtypeToKernelDefConstraint nm d k).constraint, c.allowed_values ≠ [] := by
  intro c hc
  rw [AddDtypeToKernelDefConstraint] at hc
  simp only [List.mem_map] at hc
  obtain ⟨c0, hc0, heq⟩ := hc
  subst heq
  split
  · split
    · exact h c0 hc0
    · simp
  · exact h c0 hc0

/-- The `ConcatV2` widening never empties an allowed-value list. -/
theorem widen_preserves_nonempty (c : AttrConstraint) (h : c.allowed_values ≠ []) :
    (widenConcatV2Constraint c).allowed_values ≠ [] := by
  rw [widenConcatV2Constraint]
  split
  · exact (by decide : kGpuAllTypes ≠ [])
  · exact h

/-- Claim C4: a kernel definition matching none of the rules (op is not
`Const` or `Assert`, and when the op is `ConcatV2` no `T` slot is exactly the
singleton `DT_FLOAT8_E4M3FN`) passes through `GpuOpFilter` unchanged, and
applying the filter twice agrees with applying it once. -/
theorem filter_no_match_noop (kdef : KernelDef)
    (h1 : kdef.op ≠ "Const") (h2 : kdef.op ≠ "Assert")
    (h3 : kdef.op = "ConcatV2" → ∀ c ∈ kdef.constraint,
      ¬ (c.name = "T" ∧ c.allowed_values = [DataType.DT_FLOAT8_E4M3FN])) :
    (GpuOpFilter kdef).2 = kdef ∧
      (GpuOpFilter (GpuOpFilter kdef).2).2 = (GpuOpFilter kdef).2 := by
  have hid : (GpuOpFilter kdef).2 = kdef := by
    show gpuConcatRule (gpuAssertRule (gpuConstRule kdef)) = kdef
    rw [gpuConstRule, if_neg h1, gpuAssertRule, if_neg h2, gpuConcatRule]
    by_cases hcv : kdef.op = "ConcatV2"
    · rw [if_pos hcv, map_self_of_fixed widenConcatV2Constraint kdef.constraint
        (fun c hc => by rw [widenConcatV2Constraint, if_neg (h3 hcv c hc)])]
    · rw [if_neg hcv]
  refine ⟨hid, ?_⟩
  rw [hid]
  exact hid

theorem filter_no_match_noop_witness :
    (GpuOpFilter (KernelDef.mk "Relu" [AttrConstraint.mk "T" [DataType.DT_FLOAT]])).2 =
        KernelDef.mk "Relu" [AttrConstraint.mk "T" [DataType.DT_FLOAT]] ∧
      (GpuOpFilter (GpuOpFilter
          (KernelDef.mk "Relu" [AttrConstraint.mk "T" [DataType.DT_FLOAT]])).2).2 =
        (GpuOpFilter (KernelDef.mk "Relu" [AttrConstraint.mk "T" [DataType.DT_FLOAT]])).2 :=
  filter_no_match_noop (KernelDef.mk "Relu" [AttrConstraint.mk "T" [DataType.DT_FLOAT]])
    (by decide) (by decide) (by decide)

/-- Claim C6: after `GpuOpFilter`, a `Const` kernel's `dtype` slot explicitly
allows `DT_STRING`, and an `Assert` kernel's `T` slot explicitly allows
`DT_STRING`. -/
theorem const_assert_allow_string (kdef : KernelDef) (c : AttrConstraint)
    (h : (kdef.op = "Const" ∧ c ∈ (GpuOpFilter kdef).2.constraint ∧ c.name = "dtype") ∨
         (kdef.op = "Assert" ∧ c ∈ (GpuOpFilter kdef).2.constraint ∧ c.name = "T")) :
    DataType.DT_STRING ∈ c.allowed_values := by
  obtain ⟨op, cs⟩ := kdef
  rcases h with ⟨hop, hmem, hname⟩ | ⟨hop, hmem, hname⟩
  · replace hop : op = "Const" := hop
    subst hop
    have he : (GpuOpFilter (KernelDef.mk "Const" cs)).2 =
        AddDtypeToKernelDefConstraint "dtype" DataType.DT_STRING (KernelDef.mk "Const" cs) :=
      rfl
    rw [he] at hmem
    exact addDtype_mem _ _ _ _ hmem hname
  · replace hop : op = "Assert" := hop
    subst hop
    have he : (GpuOpFilter (KernelDef.mk "Assert" cs)).2 =
        AddDtypeToKernelDefConstraint "T" DataType.DT_STRING (KernelDef.mk "Assert" cs) :=
      rfl
    rw [he] at hmem
    exact addDtype_mem _ _ _ _ hmem hname

theorem const_assert_allow_string_witness :
    DataType.DT_STRING ∈ (AttrConstraint.mk "dtype" [DataType.DT_STRING]).allowed_values :=
  const_assert_allow_string (KernelDef.mk "Const" [AttrConstraint.mk "dtype" []])
    (AttrConstraint.mk "dtype" [DataType.DT_STRING])
    (Or.inl ⟨rfl, by decide, rfl⟩)

/-- Counterexample to claim C8 as stated: the filter does not make every
allowed-value set non-empty for arbitrary kernel definitions — a definition
with an empty slot that matches no rule keeps its empty slot. -/
theorem filter_empty_slot_stays_empty :
    ¬ (∀ kdef : KernelDef, ∀ c ∈ (GpuOpFilter kdef).2.constraint,
        c.allowed_values ≠ []) := by
  intro h
  exact h (KernelDef.mk "Foo" [AttrConstraint.mk "N" []]) (AttrConstraint.mk "N" [])
    (by decide) rfl

/-- Claim C8, amended: `GpuOpFilter` preserves non-emptiness — if every
constraint slot's allowed-value set is non-empty before filtering, every slot
is non-empty afterwards; and the `ConcatV2` widening target `kGpuAllTypes` is
itself non-empty.  (The fatal empty-set check at registration time is not part
of the filter.) -/
theorem filter_preserves_nonempty (kdef : KernelDef)
    (h : ∀ c ∈ kdef.constraint, c.allowed_values ≠ []) :
    (∀ c ∈ (GpuOpFilter kdef).2.constraint, c.allowed_values ≠ []) ∧
      kGpuAllTypes ≠ [] := by
  refine ⟨?_, by decide⟩
  have s1 : ∀ c ∈ (gpuConstRule kdef).constraint, c.allowed_values ≠ [] := by
    rw [gpuConstRule]
    split
    · exact addDtype_preserves_nonempty _ _ _ h
    · exact h
  have s2 : ∀ c ∈ (gpuAssertRule (gpuConstRule kdef)).constraint, c.allowed_values ≠ [] := by
    rw [gpuAssertRule]
    split
    · exact addDtype_preserves_nonempty _ _ _ s1
    · exact s1
  show ∀ c ∈ (gpuConcatRule (gpuAssertRule (gpuConstRule kdef))).constraint,
    c.allowed_values ≠ []
  rw [gpuConcatRule]
  split
  · intro c hc
    simp only [List.mem_map] at hc
    obtain ⟨c0, hc0, heq⟩ := hc
    subst heq
    exact widen_preserves_nonempty c0 (s2 c0 hc0)
  · exact s2

theorem filter_preserves_nonempty_witness :
    (∀ c ∈ (GpuOpFilter (KernelDef.mk "ConcatV2"
        [AttrConstraint.mk "T" [DataType.DT_FLOAT8_E4M3FN]])).2.constraint,
      c.allowed_values ≠ []) ∧ kGpuAllTypes ≠ [] :=
  filter_preserves_nonempty
    (KernelDef.mk "ConcatV2" [AttrConstraint.mk "T" [DataType.DT_FLOAT8_E4M3FN]])
    (by decide)

/-- Claim C10: for a `ConcatV2` kernel definition, `GpuOpFilter` leaves every
constraint untouched unless it is a `T` slot whose allowed-value list is
exactly the singleton `DT_FLOAT8_E4M3FN`: a `T` singleton of another type, a
`T` list of two or more types, and every slot with another name all come back
unchanged at their original position. -/
theorem concatv2_frame_unchanged (kdef : KernelDef) (i : Nat) (c : AttrConstraint)
    (hop : kdef.op = "ConcatV2") (hc : kdef.constraint[i]? = some c)
    (hnot : ¬ (c.name = "T" ∧ c.allowed_values = [DataType.DT_FLOAT8_E4M3FN])) :
    (GpuOpFilter kdef).2.constraint[i]? = some c := by
  obtain ⟨op, cs⟩ := kdef
  replace hop : op = "ConcatV2" := hop
  replace hc : cs[i]? = some c := hc
  subst hop
  have he : (GpuOpFilter (KernelDef.mk "ConcatV2" cs)).2 =
      KernelDef.mk "ConcatV2" (cs.map widenConcatV2Constraint) := rfl
  rw [he]
  show (cs.map widenConcatV2Constraint)[i]? = some c
  simp only [List.getElem?_map, hc, Option.map_some']
  rw [widenConcatV2Constraint, if_neg hnot]

theorem concatv2_frame_unchanged_witness :
    (GpuOpFilter (KernelDef.mk "ConcatV2"
        [AttrConstraint.mk "T" [DataType.DT_FLOAT],
         AttrConstraint.mk "T" [DataType.DT_FLOAT8_E4M3FN, DataType.DT_FLOAT],
         AttrConstraint.mk "N" [DataType.DT_FLOAT8_E4M3FN]])).2.constraint[1]? =
      some (AttrConstraint.mk "T" [DataType.DT_FLOAT8_E4M3FN, DataType.DT_FLOAT]) :=
  concatv2_frame_unchanged
    (KernelDef.mk "ConcatV2"
      [AttrConstraint.mk "T" [DataType.DT_FLOAT],
       AttrConstraint.mk "T" [DataType.DT_FLOAT8_E4M3FN, DataType.DT_FLOAT],
       AttrConstraint.mk "N" [DataType.DT_FLOAT8_E4M3FN]])
    1 (AttrConstraint.mk "T" [DataType.DT_FLOAT8_E4M3FN, DataType.DT_FLOAT])
    rfl rfl (by decide)

/-! ## Dynamic Dimension Tracker: `ConcatBaseOp::Compile` -/

/-- XLA builder instructions emitted by the concat lowering.  `param`
represents an already-lowered input value; the rest mirror the builder calls
in the source: `ConcatInDim`, `GetDimensionSize`, `ConstantR0`, `Add`,
`SetDimensionSize`.  Operands are instruction indices (`XlaOp` handles). -/
inductive Instr where
  | param (i : Nat)
  | concatInDim (operands : List Nat) (dim : Nat)
  | getDimensionSize (operand : Nat) (dim : Nat)
  | constantR0 (v : Int)
  | add (lhs rhs : Nat)
  | setDimensionSize (operand : Nat) (size : Nat) (dim : Nat)
  deriving DecidableEq

/-- The XLA builder: the ordered list of instructions emitted so far; an
`XlaOp` is an index into this list. -/
abbrev Builder : Type := List Instr

/-- Emit one instruction: the new op handle is the instruction's index. -/
def emit (b : Builder) (ins : Instr) : Builder × Nat :=
  (b ++ [ins], b.length)

/-- An `xla::Shape`: per-axis static extents (`dimensions()`) and per-axis
dynamic flags (`is_dynamic_dimension`). -/
structure XlaShape where
  dims : List Nat
  dyn : List Bool
  deriving DecidableEq

/-- `rank()` of a shape. -/
def XlaShape.rank (s : XlaShape) : Nat := s.dims.length

/-- `dimensions(i)` of a shape. -/
def XlaShape.dimensions (s : XlaShape) (i : Nat) : Nat := s.dims.getD i 0

/-- `is_dynamic_dimension(i)` of a shape. -/
def XlaShape.isDynamicDimension (s : XlaShape) (i : Nat) : Bool := s.dyn.getD i false

/-- The per-input size instruction chosen by the loop body in the source:
`GetDimensionSize(input_data[i], axis)` when the input is dynamic along
`axis`, otherwise `ConstantR0<int32_t>(builder, input_shape.dimensions(axis))`. -/
def sizeInstr (axis : Nat) (p : Nat × XlaShape) : Instr :=
  if p.2.isDynamicDimension axis then Instr.getDimensionSize p.1 axis
  else Instr.constantR0 (Int.ofNat (p.2.dimensions axis))

/-- The extent an input contributes to the run-time sum: its actual run-time
extent (`env`) when dynamic along `axis`, its fixed static extent otherwise. -/
def contrib (env : Nat → Nat → Int) (axis : Nat) (p : Nat × XlaShape) : Int :=
  if p.2.isDynamicDimension axis then env p.1 axis
  else Int.ofNat (p.2.dimensions axis)

/-- The `for (int i = 0; i < N; ++i)` loop of the source: per input, emit its
size instruction, update `any_input_dynamic`, and fold the size into
`dynamic_size_sum` (first input initialises the sum, later inputs are folded
in with an emitted `Add`). -/
def sizeLoop (axis : Nat) :
    List (Nat × XlaShape) → Builder → Bool → Option Nat → Builder × Bool × Option Nat
  | [], b, anyDyn, acc => (b, anyDyn, acc)
  | p :: rest, b, anyDyn, acc =>
    let e1 := emit b (sizeInstr axis p)
    let anyDyn2 := anyDyn || p.2.isDynamicDimension axis
    match acc with
    | none => sizeLoop axis rest e1.1 anyDyn2 (some e1.2)
    | some a =>
      let e2 := emit e1.1 (Instr.add a e1.2)
      sizeLoop axis rest e2.1 anyDyn2 (some e2.2)

/-- The body of `ConcatBaseOp::Compile` from the source excerpt (lines
97–122 of `concat_op.cc` as given in the change description): emit the
concat, run the per-input size loop, and — only when some input was dynamic
and there is at least one input — wrap the result in `SetDimensionSize` with
the accumulated size. -/
def CompileBody (b : Builder) (inputData : List Nat) (shapes : List XlaShape)
    (axis : Nat) : Builder × Nat :=
  let e1 := emit b (Instr.concatInDim inputData axis)
  let lr := sizeLoop axis (inputData.zip shapes) e1.1 false none
  if lr.2.1 && decide (0 < inputData.length) then
    match lr.2.2 with
    | some s => emit lr.1 (Instr.setDimensionSize e1.2 s axis)
    | none => (lr.1, e1.2)
  else (lr.1, e1.2)

/-- The error taxonomy of the lowering layer: shape-inference errors for
malformed inputs, backend-capability errors for unsupported run-time extent
queries. -/
inductive CompileError where
  | shapeInference (msg : String)
  | backendCapability (msg : String)
  deriving DecidableEq

/-- Modelled from the spec: the rank/axis validation that `ConcatBaseOp`
performs before the emission code of the source excerpt (the validation lines
of `concat_op.cc` are not part of the excerpt).  It fails with a
shape-inference error when input ranks disagree or `axis` is out of range. -/
def validateConcat (shapes : List XlaShape) (axis : Nat) : Except CompileError Unit :=
  match shapes with
  | [] => Except.error (CompileError.shapeInference "concat requires at least one input")
  | s0 :: rest =>
    if rest.all (fun s => s.rank == s0.rank) then
      (if axis < s0.rank then Except.ok ()
       else Except.error (CompileError.shapeInference "axis out of range"))
    else Except.error (CompileError.shapeInference "input ranks disagree")

/-- `ConcatBaseOp::Compile`: validate ranks and axis, then run the emission
body of the source excerpt. -/
def Compile (b : Builder) (inputData : List Nat) (shapes : List XlaShape)
    (axis : Nat) : Except CompileError (Builder × Nat) :=
  match validateConcat shapes axis with
  | Except.error e => Except.error e
  | Except.ok _ => Except.ok (CompileBody b inputData shapes axis)

/-- Fuelled evaluator for the integer-valued size instructions (`ConstantR0`,
`GetDimensionSize`, `Add`); `env x d` is the actual run-time extent of the
value `x` along axis `d`.  The guard `l < id ∧ r < id` reflects that emitted
instructions only reference earlier instructions. -/
def evalGo (b : Builder) (env : Nat → Nat → Int) : Nat → Nat → Option Int
  | 0, _ => none
  | fuel + 1, id =>
    match b[id]? with
    | some (Instr.constantR0 v) => some v
    | some (Instr.getDimensionSize x d) => some (env x d)
    | some (Instr.add l r) =>
      if l < id ∧ r < id then
        match evalGo b env fuel l, evalGo b env fuel r with
        | some vl, some vr => some (vl + vr)
        | _, _ => none
      else none
    | _ => none

/-- Run-time value of the size instruction `id` in builder `b`. -/
def evalSize (b : Builder) (env : Nat → Nat → Int) (id : Nat) : Option Int :=
  evalGo b env (id + 1) id

/-- Fuelled leaf-sequence extraction: the leaves of an `Add` tree, from left
to right. -/
def leafGo (b : Builder) : Nat → Nat → Option (List Instr)
  | 0, _ => none
  | fuel + 1, id =>
    match b[id]? with
    | some (Instr.constantR0 v) => some [Instr.constantR0 v]
    | some (Instr.getDimensionSize x d) => some [Instr.getDimensionSize x d]
    | some (Instr.add l r) =>
      if l < id ∧ r < id then
        match leafGo b fuel l, leafGo b fuel r with
        | some ls, some rs => some (ls ++ rs)
        | _, _ => none
      else none
    | _ => none

/-- The left-to-right leaf sequence of the size expression rooted at `id`. -/
def leafSeq (b : Builder) (id : Nat) : Option (List Instr) :=
  leafGo b (id + 1) id

/-- Whether instruction `id` is a size leaf (`ConstantR0` or
`GetDimensionSize`). -/
def isLeafAt (b : Builder) (id : Nat) : Bool :=
  match b[id]? with
  | some (Instr.constantR0 _) => true
  | some (Instr.getDimensionSize _ _) => true
  | _ => false

/-- Fuelled check that the `Add` tree rooted at `id` is a left-leaning chain:
every `Add`'s right operand is a leaf, so the tree is a left-to-right fold
starting from its first leaf. -/
def chainGo (b : Builder) : Nat → Nat → Bool
  | 0, _ => false
  | fuel + 1, id =>
    match b[id]? with
    | some (Instr.constantR0 _) => true
    | some (Instr.getDimensionSize _ _) => true
    | some (Instr.add l r) =>
      if l < id ∧ r < id then chainGo b fuel l && isLeafAt b r else false
    | _ => false

/-- The size expression rooted at `id` is a left-leaning `Add` chain. -/
def leftChain (b : Builder) (id : Nat) : Bool :=
  chainGo b (id + 1) id

/-! ### Evaluation lemmas -/

theorem getElem?_append_pair_left (b : Builder) (x y : Instr) :
    (b ++ [x, y])[b.length]? = some x := by
  rw [show b ++ [x, y] = (b ++ [x]) ++ [y] from by simp,
    List.getElem?_append_left (by simp), List.getElem?_concat_length]

theorem getElem?_append_pair_right (b : Builder) (x y : Instr) :
    (b ++ [x, y])[b.length + 1]? = some y := by
  rw [show b ++ [x, y] = (b ++ [x]) ++ [y] from by simp]
  have h := List.getElem?_concat_length (b ++ [x]) y
  simpa using h

/-- Evaluation of an instruction already present in the builder is unchanged
by appending further instructions. -/
theorem evalGo_append (env : Nat → Nat → Int) (ext : Builder) :
    ∀ (fuel : Nat) (b : Builder) (id : Nat), id < b.length →
      evalGo (b ++ ext) env fuel id = evalGo b env fuel id := by
  intro fuel
  induction fuel with
  | zero => intro b id h; rfl
  | succ fuel ih =>
    intro b id h
    simp only [evalGo, List.getElem?_append_left h]
    cases hg : b[id]? with
    | none => rfl
    | some ins =>
      cases ins with
      | add l r =>
        by_cases hlr : l < id ∧ r < id
        · simp only [if_pos hlr, ih b l (Nat.lt_trans hlr.1 h), ih b r (Nat.lt_trans hlr.2 h)]
        · simp only [if_neg hlr]
      | param i => rfl
      | concatInDim o d => rfl
      | getDimensionSize o d => rfl
      | constantR0 v => rfl
      | setDimensionSize o s d => rfl

/-- Leaf-sequence extraction is unchanged by appending further instructions. -/
theorem leafGo_append (ext : Builder) :
    ∀ (fuel : Nat) (b : Builder) (id : Nat), id < b.length →
      leafGo (b ++ ext) fuel id = leafGo b fuel id := by
  intro fuel
  induction fuel with
  | zero => intro b id h; rfl
  | succ fuel ih =>
    intro b id h
    simp only [leafGo, List.getElem?_append_left h]
    cases hg : b[id]? with
    | none => rfl
    | some ins =>
      cases ins with
      | add l r =>
        by_cases hlr : l < id ∧ r < id
        · simp only [if_pos hlr, ih b l (Nat.lt_trans hlr.1 h), ih b r (Nat.lt_trans hlr.2 h)]
        · simp only [if_neg hlr]
      | param i => rfl
      | concatInDim o d => rfl
      | getDimensionSize o d => rfl
      | constantR0 v => rfl
      | setDimensionSize o s d => rfl

theorem isLeafAt_append (ext : Builder) (b : Builder) (id : Nat) (h : id < b.length) :
    isLeafAt (b ++ ext) id = isLeafAt b id := by
  rw [isLeafAt, isLeafAt, List.getElem?_append_left h]

/-- The left-chain check is unchanged by appending further instructions. -/
theorem chainGo_append (ext : Builder) :
    ∀ (fuel : Nat) (b : Builder) (id : Nat), id < b.length →
      chainGo (b ++ ext) fuel id = chainGo b fuel id := by
  intro fuel
  induction fuel with
  | zero => intro b id h; rfl
  | succ fuel ih =>
    intro b id h
    simp only [chainGo, List.getElem?_append_left h]
    cases hg : b[id]? with
    | none => rfl
    | some ins =>
      cases ins with
      | add l r =>
        by_cases hlr : l < id ∧ r < id
        · simp only [if_pos hlr, ih b l (Nat.lt_trans hlr.1 h),
            isLeafAt_append ext b r (Nat.lt_trans hlr.2 h)]
        · simp only [if_neg hlr]
      | param i => rfl
      | concatInDim o d => rfl
      | getDimensionSize o d => rfl
      | constantR0 v => rfl
      | setDimensionSize o s d => rfl

theorem evalGo_leaf_const (b : Builder) (env : Nat → Nat → Int) (f id : Nat) (v : Int)
    (h : b[id]? = some (Instr.constantR0 v)) : evalGo b env (f + 1) id = some v := by
  simp only [evalGo, h]

theorem evalGo_leaf_gds (b : Builder) (env : Nat → Nat → Int) (f id x d : Nat)
    (h : b[id]? = some (Instr.getDimensionSize x d)) :
    evalGo b env (f + 1) id = some (env x d) := by
  simp only [evalGo, h]

theorem evalGo_add (b : Builder) (env : Nat → Nat → Int) (f id l r : Nat) (vl vr : Int)
    (h : b[id]? = some (Instr.add l r)) (hl : l < id) (hr : r < id)
    (el : evalGo b env f l = some vl) (er : evalGo b env f r = some vr) :
    evalGo b env (f + 1) id = some (vl + vr) := by
  simp only [evalGo, h, if_pos (And.intro hl hr), el, er]

/-- A `sizeInstr` leaf evaluates to the input's contribution. -/
theorem evalGo_sizeInstr (b : Builder) (env : Nat → Nat → Int) (axis f id : Nat)
    (p : Nat × XlaShape) (h : b[id]? = some (sizeInstr axis p)) :
    evalGo b env (f + 1) id = some (contrib env axis p) := by
  rw [sizeInstr] at h
  rw [contrib]
  by_cases hd : p.2.isDynamicDimension axis = true
  · rw [if_pos hd] at h
    rw [if_pos hd]
    exact evalGo_leaf_gds b env f id p.1 axis h
  · rw [if_neg hd] at h
    rw [if_neg hd]
    exact evalGo_leaf_const b env f id (Int.ofNat (p.2.dimensions axis)) h

theorem leafGo_leaf (b : Builder) (f id : Nat) (axis : Nat) (p : Nat × XlaShape)
    (h : b[id]? = some (sizeInstr axis p)) :
    leafGo b (f + 1) id = some [sizeInstr axis p] := by
  rw [sizeInstr] at h ⊢
  by_cases hd : p.2.isDynamicDimension axis = true
  · rw [if_pos hd] at h ⊢
    simp only [leafGo, h]
  · rw [if_neg hd] at h ⊢
    simp only [leafGo, h]

theorem leafGo_add (b : Builder) (f id l r : Nat) (ll rl : List Instr)
    (h : b[id]? = some (Instr.add l r)) (hl : l < id) (hr : r < id)
    (el : leafGo b f l = some ll) (er : leafGo b f r = some rl) :
    leafGo b (f + 1) id = some (ll ++ rl) := by
  simp only [leafGo, h, if_pos (And.intro hl hr), el, er]

theorem isLeafAt_sizeInstr (b : Builder) (id : Nat) (axis : Nat) (p : Nat × XlaShape)
    (h : b[id]? = some (sizeInstr axis p)) : isLeafAt b id = true := by
  rw [sizeInstr] at h
  rw [isLeafAt]
  by_cases hd : p.2.isDynamicDimension axis = true
  · rw [if_pos hd] at h
    rw [h]
  · rw [if_neg hd] at h
    rw [h]

theorem chainGo_leaf (b : Builder) (f id : Nat) (axis : Nat) (p : Nat × XlaShape)
    (h : b[id]? = some (sizeInstr axis p)) : chainGo b (f + 1) id = true := by
  rw [sizeInstr] at h
  by_cases hd : p.2.isDynamicDimension axis = true
  · rw [if_pos hd] at h
    simp only [chainGo, h]
  · rw [if_neg hd] at h
    simp only [chainGo, h]

theorem chainGo_add (b : Builder) (f id l r : Nat)
    (h : b[id]? = some (Instr.add l r)) (hl : l < id) (hr : r < id)
    (cl : chainGo b f l = true) (cr : isLeafAt b r = true) :
    chainGo b (f + 1) id = true := by
  simp only [chainGo, h, if_pos (And.intro hl hr), cl, cr, Bool.and_self]

/-- Invariant of the size-summation loop: starting from an accumulator `a`
that evaluates to `v`, has leaf sequence `ls` and is a left chain, running
the loop over the remaining inputs `ps` appends instructions only, ors the
dynamic flags of `ps` into `anyDyn`, and yields an accumulator that evaluates
to `v` plus the contributions of `ps`, whose leaf sequence is `ls` followed by
the size instructions of `ps` in input order, and which is still a left
chain. -/
theorem sizeLoop_master (axis : Nat) (env : Nat → Nat → Int) :
    ∀ (ps : List (Nat × XlaShape)) (b : Builder) (anyDyn : Bool) (a : Nat) (v : Int)
      (ls : List Instr),
      a < b.length →
      (∀ fuel, a < fuel → evalGo b env fuel a = some v) →
      (∀ fuel, a < fuel → leafGo b fuel a = some ls) →
      (∀ fuel, a < fuel → chainGo b fuel a = true) →
      ∃ (ext : Builder) (a2 : Nat),
        sizeLoop axis ps b anyDyn (some a) =
          (b ++ ext, anyDyn || ps.any (fun p => p.2.isDynamicDimension axis), some a2) ∧
        a2 < b.length + ext.length ∧
        (∀ fuel, a2 < fuel → evalGo (b ++ ext) env fuel a2 =
          some (v + (ps.map (contrib env axis)).sum)) ∧
        (∀ fuel, a2 < fuel → leafGo (b ++ ext) fuel a2 =
          some (ls ++ ps.map (sizeInstr axis))) ∧
        (∀ fuel, a2 < fuel → chainGo (b ++ ext) fuel a2 = true) := by
  intro ps
  induction ps with
  | nil =>
    intro b anyDyn a v ls ha hv hl hc
    refine ⟨[], a, by simp [sizeLoop], by simpa using ha, ?_, ?_, ?_⟩
    · intro fuel hf
      simpa using hv fuel hf
    · intro fuel hf
      simpa using hl fuel hf
    · intro fuel hf
      simpa using hc fuel hf
  | cons p rest ih =>
    intro b anyDyn a v ls ha hv hl hc
    have hstep : sizeLoop axis (p :: rest) b anyDyn (some a) =
        sizeLoop axis rest (b ++ [sizeInstr axis p, Instr.add a b.length])
          (anyDyn || p.2.isDynamicDimension axis) (some (b.length + 1)) := by
      simp [sizeLoop, emit]
    set b2 : Builder := b ++ [sizeInstr axis p, Instr.add a b.length] with hb2
    have hlen2 : b2.length = b.length + 2 := by simp [hb2]
    have hgetSi : b2[b.length]? = some (sizeInstr axis p) := getElem?_append_pair_left b _ _
    have hgetAdd : b2[b.length + 1]? = some (Instr.add a b.length) :=
      getElem?_append_pair_right b _ _
    have ha1 : b.length + 1 < b2.length := by omega
    have hv1 : ∀ fuel, b.length + 1 < fuel →
        evalGo b2 env fuel (b.length + 1) = some (v + contrib env axis p) := by
      intro fuel hf
      cases fuel with
      | zero => exact absurd hf (by omega)
      | succ f =>
        refine evalGo_add b2 env f (b.length + 1) a b.length v (contrib env axis p)
          hgetAdd (by omega) (by omega) ?_ ?_
        · rw [evalGo_append env _ f b a ha]
          exact hv f (by omega)
        · cases f with
          | zero => exact absurd hf (by omega)
          | succ f2 => exact evalGo_sizeInstr b2 env axis f2 b.length p hgetSi
    have hl1 : ∀ fuel, b.length + 1 < fuel →
        leafGo b2 fuel (b.length + 1) = some (ls ++ [sizeInstr axis p]) := by
      intro fuel hf
      cases fuel with
      | zero => exact absurd hf (by omega)
      | succ f =>
        refine leafGo_add b2 f (b.length + 1) a b.length ls [sizeInstr axis p]
          hgetAdd (by omega) (by omega) ?_ ?_
        · rw [leafGo_append _ f b a ha]
          exact hl f (by omega)
        · cases f with
          | zero => exact absurd hf (by omega)
          | succ f2 => exact leafGo_leaf b2 f2 b.length axis p hgetSi
    have hc1 : ∀ fuel, b.length + 1 < fuel →
        chainGo b2 fuel (b.length + 1) = true := by
      intro fuel hf
      cases fuel with
      | zero => exact absurd hf (by omega)
      | succ f =>
        refine chainGo_add b2 f (b.length + 1) a b.length
          hgetAdd (by omega) (by omega) ?_ ?_
        · rw [chainGo_append _ f b a ha]
          exact hc f (by omega)
        · exact isLeafAt_sizeInstr b2 b.length axis p hgetSi
    obtain ⟨ext2, a2, heq, hlt, hv2, hl2, hc2⟩ :=
      ih b2 (anyDyn || p.2.isDynamicDimension axis) (b.length + 1)
        (v + contrib env axis p) (ls ++ [sizeInstr axis p]) ha1 hv1 hl1 hc1
    refine ⟨[sizeInstr axis p, Instr.add a b.length] ++ ext2, a2, ?_, ?_, ?_, ?_, ?_⟩
    · rw [hstep, heq, hb2, List.append_assoc]
      simp [List.any_cons, Bool.or_assoc]
    · rw [hlen2] at hlt
      simp only [List.length_append, List.length_cons, List.length_nil]
      omega
    · intro fuel hf
      have hres := hv2 fuel hf
      rw [hb2, List.append_assoc] at hres
      rw [hres]
      simp only [List.map_cons, List.sum_cons]
      ring_nf
    · intro fuel hf
      have hres := hl2 fuel hf
      rw [hb2, List.append_assoc] at hres
      rw [hres]
      simp [List.append_assoc]
    · intro fuel hf
      have hres := hc2 fuel hf
      rw [hb2, List.append_assoc] at hres
      exact hres

/-- Running the size-summation loop from an uninitialised accumulator over a
non-empty input list: the first input initialises the accumulator, the rest
are folded in; the resulting accumulator evaluates to the sum of all
contributions, its leaf sequence lists the size instructions in input order,
and it is a left chain. -/
theorem sizeLoop_from_none (axis : Nat) (env : Nat → Nat → Int) (p : Nat × XlaShape)
    (ps : List (Nat × XlaShape)) (c : Builder) :
    ∃ (ext : Builder) (a2 : Nat),
      sizeLoop axis (p :: ps) c false none =
        (c ++ ext, (p :: ps).any (fun q => q.2.isDynamicDimension axis), some a2) ∧
      a2 < c.length + ext.length ∧
      (∀ fuel, a2 < fuel → evalGo (c ++ ext) env fuel a2 =
        some (((p :: ps).map (contrib env axis)).sum)) ∧
      (∀ fuel, a2 < fuel → leafGo (c ++ ext) fuel a2 =
        some ((p :: ps).map (sizeInstr axis))) ∧
      (∀ fuel, a2 < fuel → chainGo (c ++ ext) fuel a2 = true) := by
  have hfirst : sizeLoop axis (p :: ps) c false none =
      sizeLoop axis ps (c ++ [sizeInstr axis p])
        (false || p.2.isDynamicDimension axis) (some c.length) := by
    simp [sizeLoop, emit]
  have hget : (c ++ [sizeInstr axis p])[c.length]? = some (sizeInstr axis p) :=
    List.getElem?_concat_length c _
  have ha : c.length < (c ++ [sizeInstr axis p]).length := by simp
  have hv : ∀ fuel, c.length < fuel →
      evalGo (c ++ [sizeInstr axis p]) env fuel c.length = some (contrib env axis p) := by
    intro fuel hf
    cases fuel with
    | zero => exact absurd hf (by omega)
    | succ f => exact evalGo_sizeInstr _ env axis f c.length p hget
  have hl : ∀ fuel, c.length < fuel →
      leafGo (c ++ [sizeInstr axis p]) fuel c.length = some [sizeInstr axis p] := by
    intro fuel hf
    cases fuel with
    | zero => exact absurd hf (by omega)
    | succ f => exact leafGo_leaf _ f c.length axis p hget
  have hch : ∀ fuel, c.length < fuel →
      chainGo (c ++ [sizeInstr axis p]) fuel c.length = true := by
    intro fuel hf
    cases fuel with
    | zero => exact absurd hf (by omega)
    | succ f => exact chainGo_leaf _ f c.length axis p hget
  obtain ⟨ext2, a2, heq, hlt, hv2, hl2, hc2⟩ :=
    sizeLoop_master axis env ps (c ++ [sizeInstr axis p])
      (false || p.2.isDynamicDimension axis) c.length (contrib env axis p)
      [sizeInstr axis p] ha hv hl hch
  refine ⟨[sizeInstr axis p] ++ ext2, a2, ?_, ?_, ?_, ?_, ?_⟩
  · rw [hfirst, heq, List.append_assoc]
    simp [List.any_cons, Bool.or_assoc]
  · simp only [List.length_append, List.length_cons, List.length_nil] at hlt ⊢
    omega
  · intro fuel hf
    have hres := hv2 fuel hf
    rw [List.append_assoc] at hres
    rw [hres]
    simp
  · intro fuel hf
    have hres := hl2 fuel hf
    rw [List.append_assoc] at hres
    rw [hres]
    simp
  · intro fuel hf
    have hres := hc2 fuel hf
    rw [List.append_assoc] at hres
    exact hres

/-- Behaviour of the emission body on the dynamic path: when some input is
dynamic along `axis`, the returned op is a `SetDimensionSize` wrapping the
emitted concat, its attached size evaluates to the sum of all inputs'
contributions, and the size expression is a left-to-right chain over the
inputs' size instructions in input order. -/
theorem compileBody_dynamic_spec (b : Builder) (inputData : List Nat)
    (shapes : List XlaShape) (axis : Nat) (env : Nat → Nat → Int)
    (hdyn : ((inputData.zip shapes).any fun q => q.2.isDynamicDimension axis) = true) :
    ∃ (b2 : Builder) (sz res : Nat),
      CompileBody b inputData shapes axis = (b2, res) ∧
      b2[res]? = some (Instr.setDimensionSize b.length sz axis) ∧
      b2[b.length]? = some (Instr.concatInDim inputData axis) ∧
      evalSize b2 env sz = some (((inputData.zip shapes).map (contrib env axis)).sum) ∧
      leafSeq b2 sz = some ((inputData.zip shapes).map (sizeInstr axis)) ∧
      leftChain b2 sz = true := by
  cases hz : inputData.zip shapes with
  | nil =>
    rw [hz] at hdyn
    simp at hdyn
  | cons p ps =>
    have hne : inputData ≠ [] := by
      intro h0
      rw [h0] at hz
      simp at hz
    have hpos : 0 < inputData.length := List.length_pos.mpr hne
    obtain ⟨ext, a2, heq, hlt, hv2, hl2, hc2⟩ :=
      sizeLoop_from_none axis env p ps (b ++ [Instr.concatInDim inputData axis])
    have hflag : ((p :: ps).any fun q => q.2.isDynamicDimension axis) = true := by
      rw [hz] at hdyn
      exact hdyn
    have hdec : decide (0 < inputData.length) = true := by simpa using hpos
    have hcb : CompileBody b inputData shapes axis =
        ((b ++ [Instr.concatInDim inputData axis] ++ ext) ++
           [Instr.setDimensionSize b.length a2 axis],
         (b ++ [Instr.concatInDim inputData axis] ++ ext).length) := by
      simp only [CompileBody, emit]
      rw [hz, heq, hflag, hdec]
      simp
    have hlt2 : a2 < (b ++ [Instr.concatInDim inputData axis] ++ ext).length := by
      simp only [List.length_append, List.length_cons, List.length_nil] at hlt ⊢
      omega
    refine ⟨(b ++ [Instr.concatInDim inputData axis] ++ ext) ++
        [Instr.setDimensionSize b.length a2 axis],
      a2, (b ++ [Instr.concatInDim inputData axis] ++ ext).length,
      hcb, List.getElem?_concat_length _ _, ?_, ?_, ?_, ?_⟩
    · have h1 : b.length < (b ++ [Instr.concatInDim inputData axis]).length := by simp
      have h2 : b.length < (b ++ [Instr.concatInDim inputData axis] ++ ext).length := by
        simp only [List.length_append, List.length_cons, List.length_nil]
        omega
      rw [List.getElem?_append_left h2, List.getElem?_append_left h1,
        List.getElem?_concat_length]
    · rw [evalSize, evalGo_append env _ (a2 + 1) _ a2 hlt2, hv2 (a2 + 1) (by omega)]
    · rw [leafSeq, leafGo_append _ (a2 + 1) _ a2 hlt2, hl2 (a2 + 1) (by omega)]
    · rw [leftChain, chainGo_append _ (a2 + 1) _ a2 hlt2]
      exact hc2 (a2 + 1) (by omega)

/-- Claim C2: when at least one input is dynamic along the concat axis,
`ConcatBaseOp::Compile` wraps the emitted concat in a `SetDimensionSize` on
that axis (marking the result's axis dynamic), and the attached computed
extent evaluates to the sum over all inputs of each input's actual run-time
extent — a static input contributing its fixed static extent and a dynamic
input its run-time extent `env`. -/
theorem concat_dynamic_extent_sum (b : Builder) (inputData : List Nat)
    (shapes : List XlaShape) (axis : Nat) (env : Nat → Nat → Int)
    (hlen : inputData.length = shapes.length)
    (hval : validateConcat shapes axis = Except.ok ())
    (hdyn : ((inputData.zip shapes).any fun q => q.2.isDynamicDimension axis) = true) :
    ∃ (b2 : Builder) (sz res : Nat),
      Compile b inputData shapes axis = Except.ok (b2, res) ∧
      b2[res]? = some (Instr.setDimensionSize b.length sz axis) ∧
      b2[b.length]? = some (Instr.concatInDim inputData axis) ∧
      evalSize b2 env sz = some (((inputData.zip shapes).map (contrib env axis)).sum) := by
  obtain ⟨b2, sz, res, hcb, hsds, hcc, hev, _, _⟩ :=
    compileBody_dynamic_spec b inputData shapes axis env hdyn
  refine ⟨b2, sz, res, ?_, hsds, hcc, hev⟩
  simp only [Compile, hval]
  rw [hcb]

/-- The concrete sample builder of the spec scenario: three already-lowered
inputs. -/
def sampleBuilder : Builder := [Instr.param 0, Instr.param 1, Instr.param 2]

/-- The op handles of the three sample inputs. -/
def sampleInputs : List Nat := [0, 1, 2]

/-- The spec's sample shapes: [dynamic ≤ 20, 64], [2, 64] static,
[dynamic ≤ 10, 64]. -/
def sampleShapes : List XlaShape :=
  [XlaShape.mk [20, 64] [true, false], XlaShape.mk [2, 64] [false, false],
   XlaShape.mk [10, 64] [true, false]]

/-- The spec's sample run-time extents: input 0 has run-time size 5 and
input 2 has run-time size 3 along axis 0. -/
def sampleEnv : Nat → Nat → Int :=
  fun x d => if x = 0 ∧ d = 0 then 5 else if x = 2 ∧ d = 0 then 3 else 0

theorem concat_dynamic_extent_sum_witness :
    (∃ (b2 : Builder) (sz res : Nat),
      Compile sampleBuilder sampleInputs sampleShapes 0 = Except.ok (b2, res) ∧
      b2[res]? = some (Instr.setDimensionSize sampleBuilder.length sz 0) ∧
      b2[sampleBuilder.length]? = some (Instr.concatInDim sampleInputs 0) ∧
      evalSize b2 sampleEnv sz =
        some (((sampleInputs.zip sampleShapes).map (contrib sampleEnv 0)).sum)) ∧
    ((sampleInputs.zip sampleShapes).map (contrib sampleEnv 0)).sum = 10 :=
  ⟨concat_dynamic_extent_sum sampleBuilder sampleInputs sampleShapes 0 sampleEnv
      (by decide) rfl (by decide), by decide⟩

/-- Claim C5: the run-time extent of a dynamic concat result is accumulated
by run-time addition in a left-to-right fold over the inputs in their given
order: the size expression attached by `SetDimensionSize` is a left-leaning
`Add` chain whose leaf sequence is exactly the inputs' size instructions
(`GetDimensionSize` for dynamic inputs, `ConstantR0` for static ones) in
input order, with no reordering; and `Compile` is a function of its inputs,
so the emitted instruction sequence is deterministic for a given input
sequence. -/
theorem concat_extent_fold_order (b : Builder) (inputData : List Nat)
    (shapes : List XlaShape) (axis : Nat)
    (hlen : inputData.length = shapes.length)
    (hval : validateConcat shapes axis = Except.ok ())
    (hdyn : ((inputData.zip shapes).any fun q => q.2.isDynamicDimension axis) = true) :
    ∃ (b2 : Builder) (sz res : Nat),
      Compile b inputData shapes axis = Except.ok (b2, res) ∧
      b2[res]? = some (Instr.setDimensionSize b.length sz axis) ∧
      leafSeq b2 sz = some ((inputData.zip shapes).map (sizeInstr axis)) ∧
      leftChain b2 sz = true := by
  obtain ⟨b2, sz, res, hcb, hsds, _, _, hleaf, hchain⟩ :=
    compileBody_dynamic_spec b inputData shapes axis (fun _ _ => 0) hdyn
  refine ⟨b2, sz, res, ?_, hsds, hleaf, hchain⟩
  simp only [Compile, hval]
  rw [hcb]

theorem concat_extent_fold_order_witness :
    (∃ (b2 : Builder) (sz res : Nat),
      Compile sampleBuilder sampleInputs sampleShapes 0 = Except.ok (b2, res) ∧
      b2[res]? = some (Instr.setDimensionSize sampleBuilder.length sz 0) ∧
      leafSeq b2 sz = some ((sampleInputs.zip sampleShapes).map (sizeInstr 0)) ∧
      leftChain b2 sz = true) ∧
    (sampleInputs.zip sampleShapes).map (sizeInstr 0) =
      [Instr.getDimensionSize 0 0, Instr.constantR0 2, Instr.getDimensionSize 2 0] :=
  ⟨concat_extent_fold_order sampleBuilder sampleInputs sampleShapes 0
      (by decide) rfl (by decide), by decide⟩

/-- Claim C3 (code bug): on the spec's all-static scenario — two inputs of
shapes [4, 8] and [6, 8] concatenated on axis 0 — the result is the plain
concat (op handle 2) with no `SetDimensionSize`, so no dynamic annotation is
attached; but the per-input loop still emits the extent-sum chain — here two
`ConstantR0` instructions and one `Add` — so the builder receives three extra
instructions, contradicting the claimed instruction-free static fast path. -/
theorem concat_static_path_emits_chain :
    Compile [Instr.param 0, Instr.param 1] [0, 1]
        [XlaShape.mk [4, 8] [false, false], XlaShape.mk [6, 8] [false, false]] 0 =
      Except.ok ([Instr.param 0, Instr.param 1, Instr.concatInDim [0, 1] 0,
        Instr.constantR0 4, Instr.constantR0 6, Instr.add 3 4], 2) := rfl

/-- Claim C9: when the input ranks disagree or the axis is out of range for
the inputs' rank, `Compile` fails with a shape-inference error — by
construction not a backend-capability error — and returns no partial result
(the error value carries no builder or op handle). -/
theorem concat_rank_axis_error (b : Builder) (inputData : List Nat)
    (s0 : XlaShape) (rest : List XlaShape) (axis : Nat)
    (h : (∃ s ∈ rest, s.rank ≠ s0.rank) ∨ s0.rank ≤ axis) :
    ∃ msg, Compile b inputData (s0 :: rest) axis =
      Except.error (CompileError.shapeInference msg) := by
  rw [Compile, validateConcat]
  by_cases hall : rest.all (fun s => s.rank == s0.rank) = true
  · have hax : s0.rank ≤ axis := by
      rcases h with ⟨s, hs, hne⟩ | hax
      · exact absurd (by simpa using List.all_eq_true.mp hall s hs) hne
      · exact hax
    rw [if_pos hall, if_neg (by omega : ¬ axis < s0.rank)]
    exact ⟨_, rfl⟩
  · rw [if_neg hall]
    exact ⟨_, rfl⟩

theorem concat_rank_axis_error_witness :
    ((∃ s ∈ [XlaShape.mk [2, 3] [false, false]],
        s.rank ≠ (XlaShape.mk [4] [false]).rank) ∨
      (XlaShape.mk [4] [false]).rank ≤ 0) ∧
    ∃ msg, Compile [] [0, 1]
        [XlaShape.mk [4] [false], XlaShape.mk [2, 3] [false, false]] 0 =
      Except.error (CompileError.shapeInference msg) :=
  ⟨Or.inl ⟨XlaShape.mk [2, 3] [false, false], by decide, by decide⟩,
   concat_rank_axis_error [] [0, 1] (XlaShape.mk [4] [false])
     [XlaShape.mk [2, 3] [false, false]] 0
     (Or.inl ⟨XlaShape.mk [2, 3] [false, false], by decide, by decide⟩)⟩

end TfXla
